/-
Verification of the displacement-registration core of thunder-register
(`registration/transforms.py`), shallowly embedded in Lean 4.

Modelling conventions:
* numpy ndarrays of reals are embedded as `NDArray`: a shape together with the
  row-major flattened data, with exact rationals in place of IEEE floats.
  Floating-point rounding is out of scope; every quantity the claims speak
  about (peak locations, integer displacements, shapes) is exact.
* `rfftn`/`irfftn` (transforms.py lines 70-72) are modelled through the circular
  cross-correlation theorem that this FFT pattern implements: for real arrays
  `a`, `b` of common shape `s`,
  `irfftn(rfftn(a) * rfftn(b).conjugate(), s)[k] = sum_j a[(j+k) mod s] * b[j]`.
  The embedding uses the exact right-hand side (`corrData`).
* Mutation of caller-owned buffers is modelled by functions returning the final
  contents of those buffers; see the doc comments of the `apply` functions.
-/
import Mathlib

namespace ThunderRegister

/-- Row-major (C-order) flattening of a multi-index against a shape, the
inverse of `numpy.unravel_index`. -/
def ravel : List ℕ → List ℕ → ℕ
  | _ :: s, i :: ix => i * s.prod + ravel s ix
  | _, _ => 0

/-- `numpy.unravel_index` for row-major order (used on line 75 of
transforms.py to turn the flat argmax into a per-dimension index). -/
def unravel : List ℕ → ℕ → List ℕ
  | [], _ => []
  | _ :: s, f => f / s.prod :: unravel s (f % s.prod)

theorem unravel_length (s : List ℕ) (f : ℕ) : (unravel s f).length = s.length := by
  induction s generalizing f with
  | nil => rfl
  | cons n t ih => simp [unravel, ih]

theorem unravel_zero (s : List ℕ) : unravel s 0 = List.replicate s.length 0 := by
  induction s with
  | nil => rfl
  | cons n t ih => simp [unravel, ih, List.replicate]

theorem prod_pos_of_lt_mul {n tp f : ℕ} (h : f < n * tp) : 0 < tp := by
  rcases Nat.eq_zero_or_pos tp with h0 | h0
  · subst h0; rw [Nat.mul_zero] at h; omega
  · exact h0

/-- A multi-index is valid for a shape when it is componentwise below it. -/
theorem unravel_forall₂ (s : List ℕ) (f : ℕ) (h : f < s.prod) :
    List.Forall₂ (· < ·) (unravel s f) s := by
  induction s generalizing f with
  | nil => exact List.Forall₂.nil
  | cons n t ih =>
    rw [List.prod_cons] at h
    have htp : 0 < t.prod := prod_pos_of_lt_mul h
    refine List.Forall₂.cons ?_ (ih _ (Nat.mod_lt _ htp))
    exact Nat.div_lt_of_lt_mul (by rw [Nat.mul_comm]; exact h)

theorem ravel_lt {s ix : List ℕ} (h : List.Forall₂ (· < ·) ix s) :
    ravel s ix < s.prod := by
  induction h with
  | nil => simp [ravel]
  | cons hx hrest ih =>
    rename_i i n ixt st
    simp only [ravel, List.prod_cons]
    calc i * st.prod + ravel st ixt < i * st.prod + st.prod := by omega
    _ = (i + 1) * st.prod := by ring
    _ ≤ n * st.prod := Nat.mul_le_mul_right _ (by omega)

/-- Block decomposition of `unravel` on a cons shape: flat index `i * tp + j`
with `j < tp` addresses plane `i`, inner offset `j`. -/
theorem unravel_cons_block (n : ℕ) (t : List ℕ) (i j : ℕ) (hj : j < t.prod) :
    unravel (n :: t) (i * t.prod + j) = i :: unravel t j := by
  have htp : 0 < t.prod := by omega
  simp only [unravel]
  congr 1
  · rw [Nat.add_comm, Nat.add_mul_div_right _ _ htp, Nat.div_eq_of_lt hj, Nat.zero_add]
  · rw [Nat.add_comm, Nat.add_mul_mod_self_right, Nat.mod_eq_of_lt hj]

theorem unravel_ravel {s ix : List ℕ} (h : List.Forall₂ (· < ·) ix s) :
    unravel s (ravel s ix) = ix := by
  induction h with
  | nil => rfl
  | cons hx hrest ih =>
    rename_i i n ixt st
    have hr : ravel st ixt < st.prod := ravel_lt hrest
    show unravel (n :: st) (ravel (n :: st) (i :: ixt)) = i :: ixt
    simp only [ravel]
    rw [unravel_cons_block _ _ _ _ hr, ih]

theorem ravel_unravel {s : List ℕ} {f : ℕ} (h : f < s.prod) :
    ravel s (unravel s f) = f := by
  induction s generalizing f with
  | nil => simp [List.prod_nil] at h; simp [unravel, ravel]; omega
  | cons n t ih =>
    rw [List.prod_cons] at h
    have htp : 0 < t.prod := prod_pos_of_lt_mul h
    simp only [unravel, ravel]
    rw [ih (Nat.mod_lt _ htp), Nat.mul_comm]
    exact Nat.div_add_mod f t.prod

/-- Componentwise addition of two multi-indices, each component reduced
modulo the corresponding dimension size. -/
def addMod : List ℕ → List ℕ → List ℕ → List ℕ
  | n :: s, x :: xs, y :: ys => (x + y) % n :: addMod s xs ys
  | _, _, _ => []

/-- Componentwise subtraction of an integer offset from a multi-index,
reduced modulo the corresponding dimension size (always in `[0, n)`). -/
def subMod : List ℕ → List ℕ → List ℤ → List ℕ
  | n :: s, x :: xs, v :: vs => (((x : ℤ) - v) % (n : ℤ)).toNat :: subMod s xs vs
  | _, _, _ => []

/-- Componentwise reduction of an integer displacement vector modulo the
shape: the index where a circular shift by `d` places the origin. -/
def modIdx : List ℤ → List ℕ → List ℕ
  | d :: ds, n :: s => ((d % (n : ℤ)).toNat) :: modIdx ds s
  | _, _ => []

/-- Clamping of a (possibly out-of-range) integer coordinate into `[0, n-1]`:
scipy's `mode='nearest'` boundary policy (edge replication). -/
def clampIdx (v : ℤ) (n : ℕ) : ℕ := (max 0 (min v ((n : ℤ) - 1))).toNat

/-- Componentwise `x - v` with edge clamping: the source coordinate read by
`scipy.ndimage.interpolation.shift(·, v, mode='nearest')` at output index `x`,
specialised to integer shift vectors. -/
def clampSub : List ℕ → List ℕ → List ℤ → List ℕ
  | n :: s, x :: xs, v :: vs => clampIdx ((x : ℤ) - v) n :: clampSub s xs vs
  | _, _, _ => []

/-- An n-dimensional numpy array: shape plus row-major flattened data
(exact rationals in place of floats). -/
structure NDArray where
  shape : List ℕ
  data : List ℚ
  size_eq : data.length = shape.prod

theorem NDArray.ext' {a b : NDArray} (h1 : a.shape = b.shape) (h2 : a.data = b.data) :
    a = b := by
  cases a; cases b; simp_all

/-- Number of dimensions. -/
def NDArray.ndim (a : NDArray) : ℕ := a.shape.length

/-- Total number of elements. -/
def NDArray.size (a : NDArray) : ℕ := a.shape.prod

/-- Element lookup at a multi-index (0 as default outside the data). -/
def NDArray.get (a : NDArray) (ix : List ℕ) : ℚ := a.data.getD (ravel a.shape ix) 0

/-- The all-zero array of a given shape. -/
def zerosArr (s : List ℕ) : NDArray := ⟨s, List.replicate s.prod 0, by simp⟩

theorem zerosArr_get (s : List ℕ) (ix : List ℕ) : (zerosArr s).get ix = 0 := by
  unfold NDArray.get zerosArr
  rcases Nat.lt_or_ge (ravel s ix) (List.replicate s.prod (0 : ℚ)).length with h | h
  · rw [List.getD_eq_getElem _ _ h, List.getElem_replicate]
  · exact List.getD_eq_default _ _ h

/-- `numpy.argmax` of the flattened data (line 75): the index of the first
occurrence, in row-major order, of the maximum value. -/
def argmaxFlat (l : List ℚ) : ℕ := l.findIdx fun x => l.all fun y => decide (y ≤ x)

theorem argmaxFlat_lt_length {l : List ℚ} (h : l ≠ []) : argmaxFlat l < l.length := by
  apply List.findIdx_lt_length_of_exists
  have hmax : ∃ x ∈ l, ∀ y ∈ l, y ≤ x := by
    induction l with
    | nil => simp at h
    | cons a t ih =>
      rcases t.eq_nil_or_concat with rfl | _
      · exact ⟨a, List.mem_cons_self a [], by simp⟩
      · have ht : t ≠ [] := by rintro rfl; simp_all
        obtain ⟨x, hx, hle⟩ := ih ht
        rcases le_total x a with hc | hc
        · exact ⟨a, List.mem_cons_self a t, by
            intro y hy
            rcases List.mem_cons.mp hy with rfl | hy
            · exact le_refl _
            · exact le_trans (hle y hy) hc⟩
        · exact ⟨x, List.mem_cons_of_mem _ hx, by
            intro y hy
            rcases List.mem_cons.mp hy with rfl | hy
            · exact hc
            · exact hle y hy⟩
  obtain ⟨x, hx, hle⟩ := hmax
  refine ⟨x, hx, ?_⟩
  simp only [List.all_eq_true, decide_eq_true_eq]
  exact hle

/-- If one position strictly dominates every other position, the first-maximum
argmax lands exactly there. -/
theorem argmaxFlat_eq_of_strict {l : List ℚ} {i : ℕ} (hi : i < l.length)
    (hdom : ∀ j, (hj : j < l.length) → j ≠ i → l[j] < l[i]) :
    argmaxFlat l = i := by
  unfold argmaxFlat
  have hpi : (l.all fun y => decide (y ≤ l[i])) = true := by
    simp only [List.all_eq_true, decide_eq_true_eq]
    intro y hy
    obtain ⟨j, hj, rfl⟩ := List.mem_iff_getElem.mp hy
    rcases eq_or_ne j i with rfl | hne
    · exact le_refl _
    · exact le_of_lt (hdom j hj hne)
  have hex : ∃ x ∈ l, (fun x => l.all fun y => decide (y ≤ x)) x = true :=
    ⟨l[i], List.getElem_mem hi, hpi⟩
  have hlt : l.findIdx (fun x => l.all fun y => decide (y ≤ x)) < l.length :=
    List.findIdx_lt_length_of_exists hex
  rcases Nat.lt_trichotomy (l.findIdx (fun x => l.all fun y => decide (y ≤ x))) i
    with hc | hc | hc
  · exfalso
    have hfound := List.findIdx_getElem (w := hlt)
    simp only [List.all_eq_true, decide_eq_true_eq] at hfound
    have h1 := hfound _ (List.getElem_mem hi)
    have h2 := hdom _ hlt (by omega)
    exact absurd (lt_of_le_of_lt h1 h2) (lt_irrefl _)
  · exact hc
  · exfalso
    have hnot := List.not_of_lt_findIdx hc
    simp only [hpi] at hnot
    simp at hnot

/-- On a list whose entries are all equal, the first-occurrence argmax is 0:
the deterministic tie-break of `numpy.argmax`. -/
theorem argmaxFlat_of_all_eq {l : List ℚ} {c : ℚ} (h0 : l ≠ [])
    (h : ∀ x ∈ l, x = c) : argmaxFlat l = 0 := by
  unfold argmaxFlat
  cases l with
  | nil => simp at h0
  | cons a t =>
    rw [List.findIdx_cons]
    have hall : ((a :: t).all fun y => decide (y ≤ a)) = true := by
      simp only [List.all_eq_true, decide_eq_true_eq]
      intro y hy
      rw [h y hy, h a (List.mem_cons_self a t)]
    rw [hall]
    rfl

/-- The cross-correlation surface `c` of transforms.py lines 68-72:
`f = rfftn(a); f *= rfftn(b).conjugate(); c = abs(irfftn(f, s))`.
For real inputs of common shape `s` this FFT pattern computes, exactly in
exact arithmetic, the circular cross-correlation
`c[k] = |sum_j a[(j+k) mod s] * b[j]|` (cross-correlation theorem for the
discrete Fourier transform); the embedding uses that closed form.  The
identity itself is machine-checked at the end of this file:
`idft_cross_correlation` proves `invDFT (dft a * conj (dft b)) k =
sum_j a[j+k] * b[j]` over `ZMod n`, and `corr_sum_eq_idft` connects it to
the flat sum used here (the n-dimensional transform factors across axes). -/
def corrData (a b : NDArray) : List ℚ :=
  (List.range a.size).map fun k =>
    |∑ j in Finset.range a.size,
        a.get (addMod a.shape (unravel a.shape j) (unravel a.shape k)) *
          b.get (unravel a.shape j)|

theorem corrData_length (a b : NDArray) : (corrData a b).length = a.size := by
  simp [corrData]

theorem corrData_getElem (a b : NDArray) (k : ℕ) (hk : k < (corrData a b).length) :
    (corrData a b)[k] =
      |∑ j in Finset.range a.size,
          a.get (addMod a.shape (unravel a.shape j) (unravel a.shape k)) *
            b.get (unravel a.shape j)| := by
  simp [corrData]

/-- The per-dimension raw peak location of the correlation surface:
`inds = unravel_index(argmax(c), s)` (transforms.py lines 74-75). -/
def rawPeak (a b : NDArray) : List ℕ := unravel a.shape (argmaxFlat (corrData a b))

/-- The wrap adjustment of line 80 of transforms.py:
`int(d - n) if d > n // 2 else int(d)`. -/
def adjustOne (d n : ℕ) : ℤ := if n / 2 < d then (d : ℤ) - (n : ℤ) else (d : ℤ)

/-- transforms.py `Displacement`: an immutable per-axis integer offset
(`compute` casts every component with `int(...)`, line 79-80; fractional
deltas would engage scipy's floating-point spline interpolation, which is
outside this exact embedding). -/
structure Displacement where
  delta : List ℤ
deriving DecidableEq

/-- `Displacement.toarray` (lines 30-34): `asarray(self.delta)`, a 1-D
sequence with one entry per spatial dimension. -/
def Displacement.toarray (t : Displacement) : List ℤ := t.delta

/-- `Displacement.compute` (lines 48-82) on same-shaped inputs: correlation
surface via FFT (`corrData`), flat argmax with first-occurrence tie-break
(`argmaxFlat`), `unravel_index` (`rawPeak`), then the wrap adjustment
`[int(d - n) if d > n // 2 else int(d) for (d, n) in zip(inds, a.shape)]`. -/
def Displacement.compute (a b : NDArray) : Displacement :=
  ⟨((rawPeak a b).zip a.shape).map fun p => adjustOne p.1 p.2⟩

/-- Shape of the half-spectrum produced by `numpy.fft.rfftn`: the real FFT
over the last axis halves it to `n // 2 + 1`; other axes are unchanged. -/
def rfftShape : List ℕ → List ℕ
  | [] => []
  | [n] => [n / 2 + 1]
  | n :: s => n :: rfftShape s

/-- numpy's condition for the in-place product `f *= g` to succeed:
`g.shape` must broadcast into `f.shape` (right-aligned; each dimension of
`g` equal to the corresponding dimension of `f`, or 1). -/
def bcastInto (g f : List ℕ) : Bool :=
  decide (g.length ≤ f.length) &&
    (g.reverse.zip f.reverse).all fun p => p.1 == p.2 || p.1 == 1

/-- Two numpy-level failure modes are reachable inside `Displacement.compute`
(the source performs no shape validation of its own):
* `invalidFFTSize`: `rfftn` (lines 70-71) raises `ValueError` ("invalid
  number of FFT data points") when its input has a zero-sized dimension,
  i.e. when the array is empty;
* `broadcastMismatch`: the in-place product of the two half-spectra
  (line 71) raises a broadcasting `ValueError` when their shapes cannot
  broadcast. -/
inductive NumpyError
  | invalidFFTSize
  | broadcastMismatch
deriving DecidableEq

/-- `Displacement.compute` as the unguarded numpy code executes it, in the
order the statements raise: `rfftn(a)` then `rfftn(b)` fail on an empty
input (a zero-sized dimension, `prod(shape) = 0`); then the in-place
product fails if the half-spectrum shapes cannot broadcast.  On equal
nonempty shapes the payload is the faithful value (`Displacement.compute`).
On unequal shapes whose half-spectra still broadcast, the real code also
returns a `Displacement` — built from mismatched-size floating-point DFTs;
those numeric contents are transcendental and are not modelled here, and no
claim below depends on them: only the absence of an error is used. -/
def Displacement.computeUnchecked (a b : NDArray) : Except NumpyError Displacement :=
  if a.shape.prod = 0 ∨ b.shape.prod = 0 then
    Except.error NumpyError.invalidFFTSize
  else if bcastInto (rfftShape b.shape) (rfftShape a.shape) then
    Except.ok (Displacement.compute a b)
  else
    Except.error NumpyError.broadcastMismatch

/-- `scipy.ndimage.interpolation.shift(a, sh, mode='nearest')` specialised to
integer shift vectors, where spline interpolation is exact: the output at
index `x` is the input at `x - sh`, coordinates clamped to the array bounds
(edge replication). -/
def shiftArr (a : NDArray) (sh : List ℤ) : NDArray :=
  ⟨a.shape,
   (List.range a.size).map fun k => a.get (clampSub a.shape (unravel a.shape k) sh),
   by simp [NDArray.size]⟩

/-- `Displacement.apply` (lines 36-46): `shift(im, [-x for x in delta],
mode='nearest')`.  scipy's `shift` allocates a fresh output array; `im` is
only read, never written (claim C10). -/
def Displacement.apply (t : Displacement) (im : NDArray) : NDArray :=
  shiftArr im (t.delta.map fun x => -x)

/-- The edge-replicating source index for a shift by `+d`: component `q` is
`clamp(ix_q + d_q, 0, n_q - 1)`.  Used to state C6. -/
def clampAdd (s ix : List ℕ) (d : List ℤ) : List ℕ :=
  (List.range s.length).map fun q =>
    clampIdx ((ix.getD q 0 : ℤ) + d.getD q 0) (s.getD q 0)

/-- Shape produced by `numpy.rollaxis(a, axis, 0)`: `axis` moves to the
front, the remaining axes keep their order. -/
def rollShape (s : List ℕ) (axis : ℕ) : List ℕ := s.getD axis 0 :: s.eraseIdx axis

/-- `numpy.rollaxis(a, axis, 0)`, materialised in row-major order: entry at
new multi-index `i :: rest` is `a` at `rest` with `i` re-inserted at
position `axis`. -/
def rollaxisArr (a : NDArray) (axis : ℕ) : NDArray :=
  ⟨rollShape a.shape axis,
   (List.range (rollShape a.shape axis).prod).map fun k =>
      let ix := unravel (rollShape a.shape axis) k
      a.get (ix.tail.insertIdx axis (ix.headD 0)),
   by simp⟩

/-- `numpy.rollaxis(a, 0, axis + 1)`: the leading axis moves back to
position `axis` (inverse of `rollaxisArr`). -/
def unrollaxisArr (a : NDArray) (axis : ℕ) : NDArray :=
  ⟨a.shape.tail.insertIdx axis (a.shape.headD 0),
   (List.range (a.shape.tail.insertIdx axis (a.shape.headD 0)).prod).map fun k =>
      let ix := unravel (a.shape.tail.insertIdx axis (a.shape.headD 0)) k
      a.get (ix.getD axis 0 :: ix.eraseIdx axis),
   by simp⟩

/-- The `i`-th plane of an array along its leading axis: the `i`-th
contiguous row-major block, as produced by iterating `for aa in a`. -/
def plane0 (a : NDArray) (i : ℕ) : NDArray :=
  ⟨a.shape.tail,
   (List.range a.shape.tail.prod).map fun j => a.data.getD (i * a.shape.tail.prod + j) 0,
   by simp⟩

/-- The plane of `a` with coordinate `i` fixed along dimension `axis`,
defined directly by index arithmetic (no axis rolling); used to state C7
independently of `rollaxisArr`. -/
def sliceAt (a : NDArray) (axis i : ℕ) : NDArray :=
  ⟨a.shape.eraseIdx axis,
   (List.range (a.shape.eraseIdx axis).prod).map fun k =>
      a.get ((unravel (a.shape.eraseIdx axis) k).insertIdx axis i),
   by simp⟩

/-- transforms.py `LocalDisplacement`: one integer delta vector per plane
along `axis`. -/
structure LocalDisplacement where
  delta : List (List ℤ)
  axis : ℕ
deriving DecidableEq

/-- `LocalDisplacement.toarray` (lines 107-111): `asarray(self.delta)`. -/
def LocalDisplacement.toarray (t : LocalDisplacement) : List (List ℤ) := t.delta

/-- `LocalDisplacement.compute` (lines 113-121): zips the planes of
`rollaxis(a, axis, 0)` and `rollaxis(b, axis, 0)` (so the iteration stops at
the shorter leading dimension, as python's `zip` does) and collects
`Displacement.compute(aa, bb).delta` for each plane pair in ascending
order. -/
def LocalDisplacement.compute (a b : NDArray) (axis : ℕ) : LocalDisplacement :=
  let ra := rollaxisArr a axis
  let rb := rollaxisArr b axis
  ⟨(List.range (min (ra.shape.headD 0) (rb.shape.headD 0))).map fun i =>
      (Displacement.compute (plane0 ra i) (plane0 rb i)).delta,
   axis⟩

/-- `LocalDisplacement.apply` (lines 123-139).  The source rolls `axis` to
the front, forces the view writeable (`im.setflags(write=True)`) and assigns
each shifted plane back into it (`im[ind] = shift(im[ind], ...)`), then
rolls the leading axis back.  The writes land in the caller's buffer, so the
value returned here is simultaneously the returned array and the final
contents of the caller's array `im`. -/
def LocalDisplacement.apply (t : LocalDisplacement) (im : NDArray) : NDArray :=
  let r := rollaxisArr im t.axis
  let tp := r.shape.tail.prod
  let written : NDArray :=
    ⟨r.shape,
     (List.range r.shape.prod).map fun k =>
        (shiftArr (plane0 r (k / tp)) ((t.delta.getD (k / tp) []).map fun x => -x)).data.getD
          (k % tp) 0,
     by simp⟩
  unrollaxisArr written t.axis

/-- `numpy.roll(b, d)`: circular shift, entry at `x` is `b` at `(x - d) mod s`.
Used to state C4 (the spec's "shifting a reference array by d circularly"). -/
def rollArr (b : NDArray) (d : List ℤ) : NDArray :=
  ⟨b.shape,
   (List.range b.size).map fun k => b.get (subMod b.shape (unravel b.shape k) d),
   by simp [NDArray.size]⟩

/-- Total energy of an array: its circular autocorrelation at offset zero. -/
def energy (b : NDArray) : ℚ :=
  ∑ j in Finset.range b.size, b.get (unravel b.shape j) * b.get (unravel b.shape j)

/-- Circular autocorrelation of `b` at multi-offset `m`. -/
def autocorr (b : NDArray) (m : List ℕ) : ℚ :=
  ∑ j in Finset.range b.size,
    b.get (addMod b.shape (unravel b.shape j) m) * b.get (unravel b.shape j)

/-- A reference array has a strict autocorrelation peak if every nonzero
circular offset correlates strictly below the zero offset.  This is the
hypothesis under which phase correlation provably recovers a shift. -/
def StrictAutocorrPeak (b : NDArray) : Prop :=
  ∀ f, f < b.size → unravel b.shape f ≠ List.replicate b.shape.length 0 →
    |autocorr b (unravel b.shape f)| < energy b

theorem rollaxisArr_shape (a : NDArray) (axis : ℕ) :
    (rollaxisArr a axis).shape = a.shape.getD axis 0 :: a.shape.eraseIdx axis := rfl

theorem compute_delta_length (a b : NDArray) :
    (Displacement.compute a b).delta.length = a.ndim := by
  show (((rawPeak a b).zip a.shape).map fun p => adjustOne p.1 p.2).length = _
  simp [rawPeak, unravel_length, NDArray.ndim]

theorem compute_delta_getD (a b : NDArray) (i : ℕ) (hi : i < a.ndim) :
    (Displacement.compute a b).delta.getD i 0 =
      adjustOne ((rawPeak a b).getD i 0) (a.shape.getD i 0) := by
  have h1 : (rawPeak a b).length = a.shape.length := unravel_length _ _
  have hz : i < (((rawPeak a b).zip a.shape).map fun p => adjustOne p.1 p.2).length := by
    simp only [List.length_map, List.length_zip, h1, Nat.min_self]
    exact hi
  have hr : i < (rawPeak a b).length := by rw [h1]; exact hi
  have hs : i < a.shape.length := hi
  show (((rawPeak a b).zip a.shape).map fun p => adjustOne p.1 p.2).getD i 0 = _
  rw [List.getD_eq_getElem _ _ hz, List.getElem_map, List.getElem_zip,
      List.getD_eq_getElem _ _ hr, List.getD_eq_getElem _ _ hs]

theorem forall₂_lt_getD {l1 l2 : List ℕ} (h : List.Forall₂ (· < ·) l1 l2)
    (i : ℕ) (hi : i < l1.length) : l1.getD i 0 < l2.getD i 0 := by
  obtain ⟨hlen, hget⟩ := List.forall₂_iff_get.mp h
  have hi2 : i < l2.length := by omega
  rw [List.getD_eq_getElem _ _ hi, List.getD_eq_getElem _ _ hi2]
  exact hget i hi hi2

theorem zip_self_all_eq (l : List ℕ) :
    ((l.zip l).all fun p => p.1 == p.2 || p.1 == 1) = true := by
  induction l with
  | nil => rfl
  | cons a t ih => simp_all [List.zip_cons_cons]

theorem bcastInto_self (g : List ℕ) : bcastInto g g = true := by
  unfold bcastInto
  simp [zip_self_all_eq]

theorem zip_replicate_adjust :
    ∀ s : List ℕ,
      ((List.replicate s.length 0).zip s).map (fun p => adjustOne p.1 p.2) =
        List.replicate s.length (0 : ℤ)
  | [] => rfl
  | n :: t => by
    have h0 : adjustOne 0 n = 0 := by
      unfold adjustOne
      simp
    simp only [List.length_cons, List.replicate_succ, List.zip_cons_cons, List.map_cons,
      zip_replicate_adjust t, h0]

/- Concrete arrays used in witnesses and counterexamples. -/

/-- 1-D array `[1, 0, 0]` (a delta spike, strict autocorrelation peak). -/
def arr3 : NDArray := ⟨[3], [1, 0, 0], rfl⟩

/-- 1-D array `[1, 0]`: a shape that differs from `arr3`'s but whose rfft
half-spectrum has the same length (2), so numpy multiplies them happily. -/
def arr2 : NDArray := ⟨[2], [1, 0], rfl⟩

/-- 1-D constant array `[1, 1, 1]`: flat correlation surface. -/
def ones3 : NDArray := ⟨[3], [1, 1, 1], rfl⟩

/-- 2-3 array `[[1,2,3],[4,5,6]]`. -/
def arr23 : NDArray := ⟨[2, 3], [1, 2, 3, 4, 5, 6], rfl⟩

/-- 2-2 array `[[1,2],[3,4]]`. -/
def arr22 : NDArray := ⟨[2, 2], [1, 2, 3, 4], rfl⟩

/-- 3-3 all-zero array (scenario C's first input). -/
def arr33 : NDArray := zerosArr [3, 3]

/-- 4-4 all-zero array (scenario C's second input). -/
def arr44 : NDArray := zerosArr [4, 4]

/-- C1 (counterexample): the claim "for every pair of input arrays whose
shapes differ, compute fails rather than returning a Displacement" is false:
1-D inputs of lengths 3 and 2 have rfft half-spectra of equal length 2, the
in-place product succeeds, and the unguarded code returns a Displacement. -/
theorem C1_counterexample :
    arr3.shape ≠ arr2.shape ∧ (Displacement.computeUnchecked arr3 arr2).isOk = true := by
  constructor
  · decide
  · rfl

/-- C1 (amended): `compute` performs no shape validation of its own.  On
nonempty inputs of equal shape it always returns a Displacement; a shape
mismatch fails only when the two rfft half-spectrum shapes cannot broadcast
in place — in particular 3x3 vs 4x4 raises a broadcasting error
(scenario C), while e.g. 1-D lengths 3 vs 2 return a Displacement with no
error.  Inputs with a zero-sized dimension fail earlier: numpy's `rfftn`
itself raises on an empty array, even at equal shapes. -/
theorem C1_amended :
    (∀ a b : NDArray, a.shape = b.shape → 0 < a.shape.prod →
        Displacement.computeUnchecked a b = Except.ok (Displacement.compute a b)) ∧
      Displacement.computeUnchecked arr33 arr44 =
        Except.error NumpyError.broadcastMismatch ∧
      Displacement.computeUnchecked (zerosArr [0]) (zerosArr [0]) =
        Except.error NumpyError.invalidFFTSize := by
  refine ⟨?_, rfl, rfl⟩
  intro a b h hpos
  unfold Displacement.computeUnchecked
  rw [if_neg (by rw [h] at hpos ⊢; omega), h, bcastInto_self]
  simp

/-- C1 (amended, witness): the equal-nonempty-shape branch applied at a
concrete pair. -/
theorem C1_amended_witness :
    arr33.shape = arr33.shape ∧ 0 < arr33.shape.prod ∧
      Displacement.computeUnchecked arr33 arr33 =
        Except.ok (Displacement.compute arr33 arr33) :=
  ⟨rfl, by decide, C1_amended.1 arr33 arr33 rfl (by decide)⟩

/-- C3: for every pair of same-shaped arrays, if the raw peak index of the
correlation surface in dimension `i` is `d` and the size of dimension `i` is
`n`, then the `i`-th component of the displacement returned by
`Displacement.compute` is `d - n` when `d > n // 2` (integer division) and
`d` otherwise (transforms.py line 80). -/
theorem C3_wrap_law (a b : NDArray) (_hsh : a.shape = b.shape) (i : ℕ) (hi : i < a.ndim) :
    (Displacement.compute a b).delta.getD i 0 =
      if (a.shape.getD i 0) / 2 < (rawPeak a b).getD i 0
      then ((rawPeak a b).getD i 0 : ℤ) - (a.shape.getD i 0 : ℤ)
      else ((rawPeak a b).getD i 0 : ℤ) := by
  rw [compute_delta_getD a b i hi]
  rfl

/-- C3 (witness): the wrap law applied at a concrete input. -/
theorem C3_wrap_law_witness :
    arr3.shape = arr3.shape ∧ 0 < arr3.ndim ∧
      (Displacement.compute arr3 arr3).delta.getD 0 0 =
        (if (arr3.shape.getD 0 0) / 2 < (rawPeak arr3 arr3).getD 0 0
         then ((rawPeak arr3 arr3).getD 0 0 : ℤ) - (arr3.shape.getD 0 0 : ℤ)
         else ((rawPeak arr3 arr3).getD 0 0 : ℤ)) :=
  ⟨rfl, by decide, C3_wrap_law arr3 arr3 rfl 0 (by decide)⟩

/-- C5: on two same-shaped all-zero arrays, `compute` raises no error and
returns the zero displacement: the correlation surface is identically zero,
`argmax` tie-breaks to flat index 0 (first occurrence in row-major order),
which unravels to index 0 in every dimension, and the wrap adjustment leaves
0 unchanged.  (Arrays with a zero-sized dimension are excluded: there numpy's
`argmax` itself errors on an empty array.) -/
theorem C5_allzero (s : List ℕ) (hpos : 0 < s.prod) :
    Displacement.compute (zerosArr s) (zerosArr s) = ⟨List.replicate s.length 0⟩ ∧
      Displacement.computeUnchecked (zerosArr s) (zerosArr s) =
        Except.ok ⟨List.replicate s.length 0⟩ := by
  have hentries : ∀ x ∈ corrData (zerosArr s) (zerosArr s), x = 0 := by
    intro x hx
    unfold corrData at hx
    obtain ⟨k, hk, rfl⟩ := List.mem_map.mp hx
    simp [zerosArr_get]
  have hne : corrData (zerosArr s) (zerosArr s) ≠ [] := by
    intro hnil
    have hlen := corrData_length (zerosArr s) (zerosArr s)
    rw [hnil] at hlen
    simp only [List.length_nil, NDArray.size, zerosArr] at hlen
    omega
  have hraw : rawPeak (zerosArr s) (zerosArr s) = List.replicate s.length 0 := by
    unfold rawPeak
    rw [argmaxFlat_of_all_eq hne hentries]
    exact unravel_zero s
  have hmain : Displacement.compute (zerosArr s) (zerosArr s) = ⟨List.replicate s.length 0⟩ := by
    unfold Displacement.compute
    rw [hraw]
    exact congrArg Displacement.mk (zip_replicate_adjust s)
  refine ⟨hmain, ?_⟩
  unfold Displacement.computeUnchecked
  rw [if_neg (show ¬((zerosArr s).shape.prod = 0 ∨ (zerosArr s).shape.prod = 0) from by
        show ¬(s.prod = 0 ∨ s.prod = 0)
        omega),
    bcastInto_self, hmain]
  simp

/-- C5 (witness): the all-zero tie-break at the concrete shape 2x3. -/
theorem C5_allzero_witness :
    0 < List.prod [2, 3] ∧
      Displacement.compute (zerosArr [2, 3]) (zerosArr [2, 3]) = ⟨[0, 0]⟩ :=
  ⟨by decide, (C5_allzero [2, 3] (by decide)).1⟩

/-- C9: each component of the computed displacement is an integer strictly
greater than `-n/2` and at most `n // 2`, i.e. it lies in the interval
`[n//2 - n + 1, n//2]`, where `n` is the size of its dimension. -/
theorem C9_delta_bounds (a b : NDArray) (_hsh : a.shape = b.shape)
    (hpos : ∀ n ∈ a.shape, 0 < n) (i : ℕ) (hi : i < a.ndim) :
    (((a.shape.getD i 0) / 2 : ℕ) : ℤ) - (a.shape.getD i 0 : ℤ) + 1 ≤
        (Displacement.compute a b).delta.getD i 0 ∧
      (Displacement.compute a b).delta.getD i 0 ≤ (((a.shape.getD i 0) / 2 : ℕ) : ℤ) ∧
      -(a.shape.getD i 0 : ℤ) < 2 * (Displacement.compute a b).delta.getD i 0 := by
  have hN : 0 < a.size := by
    unfold NDArray.size
    exact CanonicallyOrderedCommSemiring.list_prod_pos.mpr hpos
  have hne : corrData a b ≠ [] := by
    intro hnil
    have hlen := corrData_length a b
    rw [hnil] at hlen
    simp only [List.length_nil] at hlen
    omega
  have hflat : argmaxFlat (corrData a b) < a.shape.prod := by
    have := argmaxFlat_lt_length hne
    rw [corrData_length a b] at this
    exact this
  have hf2 : List.Forall₂ (· < ·) (rawPeak a b) a.shape :=
    unravel_forall₂ a.shape _ hflat
  have hcomp : (rawPeak a b).getD i 0 < a.shape.getD i 0 := by
    apply forall₂_lt_getD hf2
    unfold rawPeak
    rw [unravel_length]
    exact hi
  rw [compute_delta_getD a b i hi]
  unfold adjustOne
  split <;> omega

/-- C9 (witness): the bounds at a concrete input. -/
theorem C9_delta_bounds_witness :
    arr3.shape = arr3.shape ∧ (∀ n ∈ arr3.shape, 0 < n) ∧ 0 < arr3.ndim ∧
      ((((arr3.shape.getD 0 0) / 2 : ℕ) : ℤ) - (arr3.shape.getD 0 0 : ℤ) + 1 ≤
          (Displacement.compute arr3 arr3).delta.getD 0 0 ∧
        (Displacement.compute arr3 arr3).delta.getD 0 0 ≤ (((arr3.shape.getD 0 0) / 2 : ℕ) : ℤ) ∧
        -(arr3.shape.getD 0 0 : ℤ) < 2 * (Displacement.compute arr3 arr3).delta.getD 0 0) :=
  ⟨rfl, by decide, by decide, C9_delta_bounds arr3 arr3 rfl (by decide) 0 (by decide)⟩

/-- C8: `Displacement.toarray` after `compute` on n-dimensional inputs is a
1-D sequence of length n; `LocalDisplacement.toarray` after `compute` along
`axis` is a 2-D sequence of shape `[planes, n-1]` where `planes` is the
input size along `axis`. -/
theorem C8_toarray_shapes (a b : NDArray) (axis : ℕ) (hsh : a.shape = b.shape)
    (haxis : axis < a.ndim) :
    (Displacement.compute a b).toarray.length = a.ndim ∧
      (LocalDisplacement.compute a b axis).toarray.length = a.shape.getD axis 0 ∧
      ∀ row ∈ (LocalDisplacement.compute a b axis).toarray, row.length = a.ndim - 1 := by
  refine ⟨compute_delta_length a b, ?_, ?_⟩
  · show ((List.range (min ((rollaxisArr a axis).shape.headD 0)
        ((rollaxisArr b axis).shape.headD 0))).map _).length = _
    rw [List.length_map, List.length_range, rollaxisArr_shape, rollaxisArr_shape, hsh]
    simp
  · intro row hrow
    obtain ⟨i, hi, rfl⟩ := List.mem_map.mp hrow
    rw [compute_delta_length]
    show ((rollaxisArr a axis).shape.tail).length = _
    rw [rollaxisArr_shape]
    show (a.shape.eraseIdx axis).length = _
    rw [List.length_eraseIdx_of_lt haxis]
    rfl

/-- C8 (witness): the toarray shape facts at a concrete input. -/
theorem C8_toarray_shapes_witness :
    arr23.shape = arr23.shape ∧ 1 < arr23.ndim ∧
      ((Displacement.compute arr23 arr23).toarray.length = arr23.ndim ∧
        (LocalDisplacement.compute arr23 arr23 1).toarray.length = arr23.shape.getD 1 0 ∧
        ∀ row ∈ (LocalDisplacement.compute arr23 arr23 1).toarray,
          row.length = arr23.ndim - 1) :=
  ⟨rfl, by decide, C8_toarray_shapes arr23 arr23 1 rfl (by decide)⟩

/-- Final contents of the input arrays after `Displacement.compute` (lines
65-82): the body only reads `a` and `b` — `rfftn` allocates its outputs and
the in-place `f *= ...` of line 71 writes the freshly allocated spectrum
`f`, never `a` or `b` — so both argument buffers are returned unchanged. -/
def Displacement.computeFinal (a b : NDArray) : NDArray × NDArray := (a, b)

/-- Final contents of `im` and of `self.delta` after `Displacement.apply`
(lines 36-46): `scipy.ndimage.interpolation.shift` only reads its input and
allocates a fresh output array, and `map(lambda x: -x, self.delta)` builds a
new list, so neither the image buffer nor the delta is written. -/
def Displacement.applyFinal (t : Displacement) (im : NDArray) : NDArray × List ℤ :=
  (im, t.delta)

/-- C10: `Displacement.compute` leaves both inputs unchanged, and
`Displacement.apply` leaves its input image and the transformation's `delta`
unchanged (the result is a separately built array, `shiftArr`).  The final
buffer contents are as translated line-by-line in `computeFinal` and
`applyFinal`; contrast with `LocalDisplacement.apply`, which does write the
caller's buffer (see C2). -/
theorem C10_no_mutation (t : Displacement) (im a b : NDArray) :
    Displacement.computeFinal a b = (a, b) ∧
      Displacement.applyFinal t im = (im, t.delta) ∧
      Displacement.apply t im = shiftArr im (t.delta.map fun x => -x) :=
  ⟨rfl, rfl, rfl⟩

theorem shiftArr_get (a : NDArray) (sh : List ℤ) {ix : List ℕ}
    (hix : List.Forall₂ (· < ·) ix a.shape) :
    (shiftArr a sh).get ix = a.get (clampSub a.shape ix sh) := by
  have hlt : ravel a.shape ix < a.shape.prod := ravel_lt hix
  have hlen : ravel a.shape ix <
      ((List.range a.size).map fun k => a.get (clampSub a.shape (unravel a.shape k) sh)).length := by
    simpa [NDArray.size] using hlt
  show ((List.range a.size).map fun k =>
      a.get (clampSub a.shape (unravel a.shape k) sh)).getD (ravel a.shape ix) 0 =
    a.get (clampSub a.shape ix sh)
  rw [List.getD_eq_getElem _ _ hlen, List.getElem_map, List.getElem_range,
    unravel_ravel hix]

theorem clampAdd_cons (n : ℕ) (s : List ℕ) (x : ℕ) (xs : List ℕ) (v : ℤ) (vs : List ℤ) :
    clampAdd (n :: s) (x :: xs) (v :: vs) = clampIdx ((x : ℤ) + v) n :: clampAdd s xs vs := by
  unfold clampAdd
  rw [List.length_cons, List.range_succ_eq_map, List.map_cons, List.map_map]
  simp [Function.comp_def]

theorem clampSub_map_neg :
    ∀ (s ix : List ℕ) (d : List ℤ), ix.length = s.length → d.length = s.length →
      clampSub s ix (d.map fun x => -x) = clampAdd s ix d
  | [], [], [], _, _ => rfl
  | n :: s, x :: xs, v :: vs, hix, hd => by
    rw [List.map_cons]
    show clampIdx ((x : ℤ) - -v) n :: clampSub s xs (vs.map fun x => -x) = _
    rw [sub_neg_eq_add, clampAdd_cons,
      clampSub_map_neg s xs vs (by simpa using hix) (by simpa using hd)]

/-- C6: `Displacement.apply` returns an array of the input's shape whose
value at every in-range index `x` is the input's value at the
edge-replication-clamped coordinate `x + delta` — that is, the image
shifted by the negated delta (scipy shift semantics `out[x] = in[x - sh]`
with `sh = -delta` and `mode='nearest'`), exactly for the integer deltas
`compute` produces.  Fractional deltas engage scipy's floating-point spline
interpolation and are outside this exact embedding. -/
theorem C6_apply_shift (t : Displacement) (im : NDArray)
    (hlen : t.delta.length = im.ndim) :
    (Displacement.apply t im).shape = im.shape ∧
      ∀ ix, List.Forall₂ (· < ·) ix im.shape →
        (Displacement.apply t im).get ix = im.get (clampAdd im.shape ix t.delta) := by
  refine ⟨rfl, ?_⟩
  intro ix hix
  unfold Displacement.apply
  rw [shiftArr_get im _ hix, clampSub_map_neg im.shape ix t.delta hix.length_eq hlen]

/-- C6 (witness): the shift law applied at a concrete image and delta. -/
theorem C6_apply_shift_witness :
    (Displacement.mk [1, 0]).delta.length = arr22.ndim ∧
      (Displacement.apply ⟨[1, 0]⟩ arr22).shape = arr22.shape ∧
      (Displacement.apply ⟨[1, 0]⟩ arr22).get [0, 1] =
        arr22.get (clampAdd arr22.shape [0, 1] [1, 0]) :=
  ⟨by decide, (C6_apply_shift ⟨[1, 0]⟩ arr22 (by decide)).1,
    (C6_apply_shift ⟨[1, 0]⟩ arr22 (by decide)).2 [0, 1]
      (List.Forall₂.cons (by decide) (List.Forall₂.cons (by decide) List.Forall₂.nil))⟩

theorem insertIdx_getD_eraseIdx :
    ∀ (s : List ℕ) (axis : ℕ), axis < s.length →
      (s.eraseIdx axis).insertIdx axis (s.getD axis 0) = s
  | _ :: _, 0, _ => rfl
  | n :: t, axis + 1, h => by
    simp only [List.eraseIdx_cons_succ, List.getD_cons_succ, List.insertIdx_succ_cons]
    rw [insertIdx_getD_eraseIdx t axis (by simpa using h)]

/-- C2 (amended): `LocalDisplacement.apply` returns an array with the
original shape and axis ordering restored (the final `rollaxis(im, 0,
axis+1)` inverts the initial `rollaxis(im, axis)`); but the shifted planes
are written through a writeable view into the caller's buffer
(`im.setflags(write=True)`; `im[ind] = shift(...)`), so the caller's array
ends up holding exactly this returned content rather than its original
values (see `C2_counterexample`). -/
theorem C2_apply_shape (t : LocalDisplacement) (im : NDArray)
    (haxis : t.axis < im.ndim) :
    (LocalDisplacement.apply t im).shape = im.shape := by
  show (im.shape.eraseIdx t.axis).insertIdx t.axis (im.shape.getD t.axis 0) = im.shape
  exact insertIdx_getD_eraseIdx im.shape t.axis haxis

/-- C2 (amended, witness): shape restoration at a concrete input. -/
theorem C2_apply_shape_witness :
    0 < arr22.ndim ∧
      (LocalDisplacement.apply ⟨[[1], [1]], 0⟩ arr22).shape = arr22.shape :=
  ⟨by decide, C2_apply_shape ⟨[[1], [1]], 0⟩ arr22 (by decide)⟩

/-- C2 (counterexample): the claim that `LocalDisplacement.apply` leaves the
caller's array unchanged is false.  For `im = [[1,2],[3,4]]`, `axis = 0` and
per-plane deltas `[[1],[1]]`, the rows are shifted to `[2,2]` and `[4,4]`
and written back through the rolled view, so the buffer of the caller's
array afterwards (which is what `LocalDisplacement.apply` returns) differs
from `im`'s original contents. -/
theorem C2_counterexample :
    (LocalDisplacement.apply ⟨[[1], [1]], 0⟩ arr22).data ≠ arr22.data := by decide

theorem prod_getD_mul_eraseIdx :
    ∀ (s : List ℕ) (axis : ℕ), axis < s.length →
      s.prod = s.getD axis 0 * (s.eraseIdx axis).prod
  | n :: t, 0, _ => by simp
  | n :: t, axis + 1, h => by
    simp only [List.eraseIdx_cons_succ, List.getD_cons_succ, List.prod_cons]
    rw [prod_getD_mul_eraseIdx t axis (by simpa using h)]
    ring

/-- The planes obtained by iterating a rolled array are exactly the fixed-
coordinate slices of the original array. -/
theorem plane0_rollaxisArr (a : NDArray) (axis i : ℕ) (_haxis : axis < a.ndim)
    (hi : i < a.shape.getD axis 0) :
    plane0 (rollaxisArr a axis) i = sliceAt a axis i := by
  apply NDArray.ext'
  · rfl
  · show (List.range (a.shape.eraseIdx axis).prod).map
        (fun j => (rollaxisArr a axis).data.getD (i * (a.shape.eraseIdx axis).prod + j) 0) =
      (List.range (a.shape.eraseIdx axis).prod).map
        (fun k => a.get ((unravel (a.shape.eraseIdx axis) k).insertIdx axis i))
    apply List.map_congr_left
    intro j hj
    rw [List.mem_range] at hj
    have hk : i * (a.shape.eraseIdx axis).prod + j < (rollShape a.shape axis).prod := by
      show i * (a.shape.eraseIdx axis).prod + j <
        (a.shape.getD axis 0 :: a.shape.eraseIdx axis).prod
      rw [List.prod_cons]
      calc i * (a.shape.eraseIdx axis).prod + j
          < i * (a.shape.eraseIdx axis).prod + (a.shape.eraseIdx axis).prod := by omega
        _ = (i + 1) * (a.shape.eraseIdx axis).prod := by ring
        _ ≤ a.shape.getD axis 0 * (a.shape.eraseIdx axis).prod :=
            Nat.mul_le_mul_right _ (by omega)
    have hlen : i * (a.shape.eraseIdx axis).prod + j <
        ((List.range (rollShape a.shape axis).prod).map fun k =>
          let ix := unravel (rollShape a.shape axis) k
          a.get (ix.tail.insertIdx axis (ix.headD 0))).length := by
      simpa using hk
    show (rollaxisArr a axis).data.getD (i * (a.shape.eraseIdx axis).prod + j) 0 = _
    rw [show (rollaxisArr a axis).data = (List.range (rollShape a.shape axis).prod).map
        fun k =>
          let ix := unravel (rollShape a.shape axis) k
          a.get (ix.tail.insertIdx axis (ix.headD 0)) from rfl]
    rw [List.getD_eq_getElem _ _ hlen, List.getElem_map, List.getElem_range]
    show a.get ((unravel (a.shape.getD axis 0 :: a.shape.eraseIdx axis)
        (i * (a.shape.eraseIdx axis).prod + j)).tail.insertIdx axis
        ((unravel (a.shape.getD axis 0 :: a.shape.eraseIdx axis)
          (i * (a.shape.eraseIdx axis).prod + j)).headD 0)) = _
    rw [unravel_cons_block _ _ _ _ hj]
    simp only [List.tail_cons, List.headD_cons]

/-- C7: the `i`-th entry of `LocalDisplacement.compute(a, b, axis).delta`,
for every `i` below the size of `axis` in ascending order, is
`Displacement.compute` applied to the `i`-th plane pair of `a` and `b`
along `axis` (the plane pairs produced by rolling `axis` to the front). -/
theorem C7_local_compute (a b : NDArray) (axis : ℕ) (hsh : a.shape = b.shape)
    (haxis : axis < a.ndim) (i : ℕ) (hi : i < a.shape.getD axis 0) :
    (LocalDisplacement.compute a b axis).delta.getD i [] =
      (Displacement.compute (sliceAt a axis i) (sliceAt b axis i)).delta := by
  have hmin : min ((rollaxisArr a axis).shape.headD 0) ((rollaxisArr b axis).shape.headD 0)
      = a.shape.getD axis 0 := by
    rw [rollaxisArr_shape, rollaxisArr_shape, ← hsh]
    simp
  have hlen : i < ((List.range (min ((rollaxisArr a axis).shape.headD 0)
      ((rollaxisArr b axis).shape.headD 0))).map fun i =>
        (Displacement.compute (plane0 (rollaxisArr a axis) i)
          (plane0 (rollaxisArr b axis) i)).delta).length := by
    rw [List.length_map, List.length_range, hmin]
    exact hi
  show ((List.range (min ((rollaxisArr a axis).shape.headD 0)
      ((rollaxisArr b axis).shape.headD 0))).map fun i =>
        (Displacement.compute (plane0 (rollaxisArr a axis) i)
          (plane0 (rollaxisArr b axis) i)).delta).getD i [] = _
  rw [List.getD_eq_getElem _ _ hlen, List.getElem_map, List.getElem_range,
    plane0_rollaxisArr a axis i haxis hi,
    plane0_rollaxisArr b axis i (by rw [NDArray.ndim, ← hsh]; exact haxis)
      (by rw [← hsh]; exact hi)]

/-- C7 (witness): per-plane decomposition at a concrete input. -/
theorem C7_local_compute_witness :
    (rollArr arr23 [0, 1]).shape = arr23.shape ∧ 0 < (rollArr arr23 [0, 1]).ndim ∧
      0 < (rollArr arr23 [0, 1]).shape.getD 0 0 ∧
      (LocalDisplacement.compute (rollArr arr23 [0, 1]) arr23 0).delta.getD 0 [] =
        (Displacement.compute (sliceAt (rollArr arr23 [0, 1]) 0 0)
          (sliceAt arr23 0 0)).delta :=
  ⟨rfl, by decide, by decide,
    C7_local_compute (rollArr arr23 [0, 1]) arr23 0 rfl (by decide) 0 (by decide)⟩

/- Supporting lemmas for C4: modular index arithmetic. -/

theorem emod_toNat_lt (x : ℤ) (n : ℕ) (hn : 0 < n) : (x % (n : ℤ)).toNat < n := by
  have h1 : 0 ≤ x % (n : ℤ) := Int.emod_nonneg x (by omega)
  have h2 : x % (n : ℤ) < (n : ℤ) := Int.emod_lt_of_pos x (by omega)
  omega

theorem toNat_cast_zmod {x : ℤ} (n : ℕ) (hx : 0 ≤ x) :
    ((x.toNat : ℕ) : ZMod n) = ((x : ℤ) : ZMod n) := by
  rw [← Int.cast_natCast, Int.toNat_of_nonneg hx]

/-- Commutation of circular index shifts: subtracting an integer offset from
a mod-n sum equals adding the reduced offset and reducing. -/
theorem mod_shuffle (n j k : ℕ) (d : ℤ) (hn : 0 < n) :
    (((((j + k) % n : ℕ) : ℤ) - d) % (n : ℤ)).toNat
      = (j + (((k : ℤ) - d) % (n : ℤ)).toNat) % n := by
  have hL : (((((j + k) % n : ℕ) : ℤ) - d) % (n : ℤ)).toNat < n := emod_toNat_lt _ _ hn
  have hR : (j + (((k : ℤ) - d) % (n : ℤ)).toNat) % n < n := Nat.mod_lt _ hn
  have hLnn : 0 ≤ ((((j + k) % n : ℕ) : ℤ) - d) % (n : ℤ) := Int.emod_nonneg _ (by omega)
  have hknn : 0 ≤ ((k : ℤ) - d) % (n : ℤ) := Int.emod_nonneg _ (by omega)
  have hcast : (((((((j + k) % n : ℕ) : ℤ) - d) % (n : ℤ)).toNat : ℕ) : ZMod n)
      = (((j + (((k : ℤ) - d) % (n : ℤ)).toNat) % n : ℕ) : ZMod n) := by
    rw [toNat_cast_zmod n hLnn, ZMod.intCast_mod, ZMod.natCast_mod, Nat.cast_add,
      toNat_cast_zmod n hknn, ZMod.intCast_mod]
    push_cast [ZMod.natCast_mod]
    ring
  have hval := congrArg ZMod.val hcast
  rw [ZMod.val_cast_of_lt hL, ZMod.val_cast_of_lt hR] at hval
  exact hval

theorem sub_emod_toNat_self (d : ℤ) (n : ℕ) (hn : 0 < n) :
    ((((d % (n : ℤ)).toNat : ℤ) - d) % (n : ℤ)).toNat = 0 := by
  have h0 : 0 ≤ d % (n : ℤ) := Int.emod_nonneg _ (by omega)
  have he : ((d % (n : ℤ)).toNat : ℤ) - d = (n : ℤ) * (-(d / (n : ℤ))) := by
    rw [Int.toNat_of_nonneg h0, Int.emod_def]
    ring
  rw [he, Int.mul_emod_right]
  rfl

theorem subMod_eq_zero_comp {x : ℕ} {d : ℤ} {n : ℕ} (hn : 0 < n) (hx : x < n)
    (h : (((x : ℤ) - d) % (n : ℤ)).toNat = 0) : x = (d % (n : ℤ)).toNat := by
  have hnn : 0 ≤ ((x : ℤ) - d) % (n : ℤ) := Int.emod_nonneg _ (by omega)
  have h0 : ((x : ℤ) - d) % (n : ℤ) = 0 := by omega
  have hmod : (x : ℤ) % (n : ℤ) = d % (n : ℤ) :=
    Int.emod_eq_emod_iff_emod_sub_eq_zero.mpr h0
  have hx' : (x : ℤ) % (n : ℤ) = (x : ℤ) := Int.emod_eq_of_lt (by omega) (by omega)
  have hxd : (x : ℤ) = d % (n : ℤ) := by rw [← hx']; exact hmod
  omega

theorem adjust_recovers (di : ℤ) (n : ℕ) (h : 2 * di.natAbs < n) :
    adjustOne ((di % (n : ℤ)).toNat) n = di := by
  unfold adjustOne
  have hn : 0 < n := by omega
  rcases le_or_lt 0 di with hdi | hdi
  · have hval : di % (n : ℤ) = di := Int.emod_eq_of_lt hdi (by omega)
    rw [hval]
    split <;> omega
  · have e1 : (di + (n : ℤ)) % (n : ℤ) = di % (n : ℤ) := by
      have h1 := Int.add_mul_emod_self_left (a := di) (b := (n : ℤ)) (c := 1)
      rw [mul_one] at h1
      exact h1
    have hval : di % (n : ℤ) = di + n := by
      rw [← e1]
      exact Int.emod_eq_of_lt (by omega) (by omega)
    rw [hval]
    split <;> omega

/- Componentwise lemmas lifted to multi-index lists. -/

theorem addMod_forall₂ :
    ∀ (s xs ys : List ℕ), (∀ n ∈ s, 0 < n) → xs.length = s.length →
      ys.length = s.length → List.Forall₂ (· < ·) (addMod s xs ys) s
  | [], _, _, _, _, _ => List.Forall₂.nil
  | _ :: _, [], _, _, hx, _ => by simp at hx
  | _ :: _, _ :: _, [], _, _, hy => by simp at hy
  | n :: t, x :: xs, y :: ys, hpos, hx, hy => by
    refine List.Forall₂.cons (Nat.mod_lt _ (hpos n (List.mem_cons_self n t)))
      (addMod_forall₂ t xs ys (fun a ha => hpos a (List.mem_cons_of_mem _ ha))
        (by simpa using hx) (by simpa using hy))

theorem subMod_forall₂ :
    ∀ (s xs : List ℕ) (d : List ℤ), (∀ n ∈ s, 0 < n) → xs.length = s.length →
      d.length = s.length → List.Forall₂ (· < ·) (subMod s xs d) s
  | [], _, _, _, _, _ => List.Forall₂.nil
  | _ :: _, [], _, _, hx, _ => by simp at hx
  | _ :: _, _ :: _, [], _, _, hy => by simp at hy
  | n :: t, x :: xs, v :: vs, hpos, hx, hy => by
    refine List.Forall₂.cons (emod_toNat_lt _ _ (hpos n (List.mem_cons_self n t)))
      (subMod_forall₂ t xs vs (fun a ha => hpos a (List.mem_cons_of_mem _ ha))
        (by simpa using hx) (by simpa using hy))

theorem modIdx_forall₂ :
    ∀ (d : List ℤ) (s : List ℕ), d.length = s.length → (∀ n ∈ s, 0 < n) →
      List.Forall₂ (· < ·) (modIdx d s) s
  | [], [], _, _ => List.Forall₂.nil
  | _ :: _, [], hd, _ => by simp at hd
  | [], _ :: _, hd, _ => by simp at hd
  | dd :: d', n :: t, hd, hpos =>
    List.Forall₂.cons (emod_toNat_lt _ _ (hpos n (List.mem_cons_self n t)))
      (modIdx_forall₂ d' t (by simpa using hd)
        (fun a ha => hpos a (List.mem_cons_of_mem _ ha)))

theorem subMod_addMod (s : List ℕ) :
    ∀ (xs ks : List ℕ) (d : List ℤ), List.Forall₂ (· < ·) xs s →
      ks.length = s.length → d.length = s.length →
      subMod s (addMod s xs ks) d = addMod s xs (subMod s ks d) := by
  induction s with
  | nil =>
    intro xs ks d hf _ _
    cases hf
    rfl
  | cons n t ih =>
    intro xs ks d hf hk hd
    cases hf with
    | cons hx hf' =>
      rename_i x xs'
      cases ks with
      | nil => simp at hk
      | cons k ks' =>
        cases d with
        | nil => simp at hd
        | cons dd d' =>
          simp only [addMod, subMod]
          congr 1
          · exact mod_shuffle n x k dd (by omega)
          · exact ih xs' ks' d' hf' (by simpa using hk) (by simpa using hd)

theorem addMod_replicate_zero {s xs : List ℕ} (h : List.Forall₂ (· < ·) xs s) :
    addMod s xs (List.replicate s.length 0) = xs := by
  induction h with
  | nil => rfl
  | cons hx h' ih =>
    rename_i x n xs' t
    simp only [List.length_cons, List.replicate_succ, addMod]
    rw [Nat.add_zero, Nat.mod_eq_of_lt hx, ih]

theorem subMod_modIdx_self :
    ∀ (s : List ℕ) (d : List ℤ), d.length = s.length → (∀ n ∈ s, 0 < n) →
      subMod s (modIdx d s) d = List.replicate s.length 0
  | [], [], _, _ => rfl
  | [], _ :: _, hd, _ => by simp at hd
  | _ :: _, [], hd, _ => by simp at hd
  | n :: t, dd :: d', hd, hpos => by
    simp only [modIdx, subMod, List.length_cons, List.replicate_succ]
    congr 1
    · exact sub_emod_toNat_self dd n (hpos n (List.mem_cons_self n t))
    · exact subMod_modIdx_self t d' (by simpa using hd)
        (fun a ha => hpos a (List.mem_cons_of_mem _ ha))

theorem subMod_eq_replicate_imp {s kx : List ℕ} (h : List.Forall₂ (· < ·) kx s) :
    ∀ d : List ℤ, d.length = s.length →
      subMod s kx d = List.replicate s.length 0 → kx = modIdx d s := by
  induction h with
  | nil =>
    intro d hd _
    cases d with
    | nil => rfl
    | cons => simp at hd
  | cons hx h' ih =>
    rename_i x n kx' t
    intro d hd hsub
    cases d with
    | nil => simp at hd
    | cons dd d' =>
      simp only [subMod, List.length_cons, List.replicate_succ, List.cons.injEq] at hsub
      obtain ⟨h1, h2⟩ := hsub
      have hn : 0 < n := by omega
      rw [show modIdx (dd :: d') (n :: t) = (dd % (n : ℤ)).toNat :: modIdx d' t from rfl,
        subMod_eq_zero_comp hn hx h1, ih d' (by simpa using hd) h2]

theorem forall₂_natAbs_pos {d : List ℤ} {s : List ℕ}
    (h : List.Forall₂ (fun di n => 2 * di.natAbs < n) d s) : ∀ n ∈ s, 0 < n := by
  induction h with
  | nil =>
    intro n hn
    simp at hn
  | cons hx h' ih =>
    intro n hn
    rcases List.mem_cons.mp hn with rfl | hn
    · omega
    · exact ih n hn

theorem zip_modIdx_adjust {d : List ℤ} {s : List ℕ}
    (h : List.Forall₂ (fun di n => 2 * di.natAbs < n) d s) :
    ((modIdx d s).zip s).map (fun p => adjustOne p.1 p.2) = d := by
  induction h with
  | nil => rfl
  | cons hx h' ih =>
    rename_i di n d' t
    simp only [modIdx, List.zip_cons_cons, List.map_cons, ih]
    rw [adjust_recovers di n hx]

/- Supporting lemmas for C4: the correlation surface of a rolled array. -/

theorem energy_nonneg (b : NDArray) : 0 ≤ energy b :=
  Finset.sum_nonneg fun _ _ => mul_self_nonneg _

theorem autocorr_zero_offset (b : NDArray) :
    autocorr b (List.replicate b.shape.length 0) = energy b := by
  unfold autocorr energy
  apply Finset.sum_congr rfl
  intro j hj
  rw [Finset.mem_range] at hj
  rw [addMod_replicate_zero (unravel_forall₂ b.shape j hj)]

theorem rollArr_get (b : NDArray) (d : List ℤ) {ix : List ℕ}
    (hix : List.Forall₂ (· < ·) ix b.shape) :
    (rollArr b d).get ix = b.get (subMod b.shape ix d) := by
  have hlt : ravel b.shape ix < b.shape.prod := ravel_lt hix
  have hlen : ravel b.shape ix <
      ((List.range b.size).map fun k =>
        b.get (subMod b.shape (unravel b.shape k) d)).length := by
    simpa [NDArray.size] using hlt
  show ((List.range b.size).map fun k =>
      b.get (subMod b.shape (unravel b.shape k) d)).getD (ravel b.shape ix) 0 = _
  rw [List.getD_eq_getElem _ _ hlen, List.getElem_map, List.getElem_range, unravel_ravel hix]

theorem corrData_roll_entry (b : NDArray) (d : List ℤ) (hd : d.length = b.shape.length)
    (hpos : ∀ n ∈ b.shape, 0 < n) (k : ℕ) (_hk : k < b.size)
    (hb : k < (corrData (rollArr b d) b).length) :
    (corrData (rollArr b d) b)[k] =
      |autocorr b (subMod b.shape (unravel b.shape k) d)| := by
  rw [corrData_getElem]
  show |∑ j in Finset.range b.size,
      (rollArr b d).get (addMod b.shape (unravel b.shape j) (unravel b.shape k)) *
        b.get (unravel b.shape j)| = _
  unfold autocorr
  congr 1
  apply Finset.sum_congr rfl
  intro j hj
  rw [Finset.mem_range] at hj
  have huj : List.Forall₂ (· < ·) (unravel b.shape j) b.shape :=
    unravel_forall₂ b.shape j hj
  have hadd : List.Forall₂ (· < ·)
      (addMod b.shape (unravel b.shape j) (unravel b.shape k)) b.shape :=
    addMod_forall₂ _ _ _ hpos (unravel_length _ _) (unravel_length _ _)
  rw [rollArr_get b d hadd,
    subMod_addMod b.shape _ _ d huj (unravel_length _ _) hd]

/-- C4 (amended): for a reference array `b` whose circular autocorrelation
has a strict global peak at offset zero, and every integer displacement `d`
with `|d_i| < s_i / 2` in each dimension, computing the displacement of the
circularly shifted array against the reference recovers `d` exactly.  (The
strict-peak hypothesis is necessary: a constant reference array has a flat
correlation surface and the argmax tie-break returns 0, see
`C4_counterexample`.) -/
theorem C4_shift_recovery (b : NDArray) (d : List ℤ)
    (hd : List.Forall₂ (fun di n => 2 * di.natAbs < n) d b.shape)
    (hpeak : StrictAutocorrPeak b) :
    Displacement.compute (rollArr b d) b = ⟨d⟩ := by
  have hpos : ∀ n ∈ b.shape, 0 < n := forall₂_natAbs_pos hd
  have hdlen : d.length = b.shape.length := hd.length_eq
  have hp : List.Forall₂ (· < ·) (modIdx d b.shape) b.shape :=
    modIdx_forall₂ d b.shape hdlen hpos
  have hravp : ravel b.shape (modIdx d b.shape) < b.size := ravel_lt hp
  have hlenc : (corrData (rollArr b d) b).length = b.size := corrData_length _ _
  have hb2 : ravel b.shape (modIdx d b.shape) < (corrData (rollArr b d) b).length := by
    rw [hlenc]
    exact hravp
  have hpeakval : (corrData (rollArr b d) b)[ravel b.shape (modIdx d b.shape)] =
      energy b := by
    rw [corrData_roll_entry b d hdlen hpos _ hravp hb2, unravel_ravel hp,
      subMod_modIdx_self b.shape d hdlen hpos, autocorr_zero_offset b,
      abs_of_nonneg (energy_nonneg b)]
  have hdom : ∀ q, (hq : q < (corrData (rollArr b d) b).length) →
      q ≠ ravel b.shape (modIdx d b.shape) →
      (corrData (rollArr b d) b)[q] <
        (corrData (rollArr b d) b)[ravel b.shape (modIdx d b.shape)] := by
    intro q hq hne
    have hqN : q < b.size := by rw [← hlenc]; exact hq
    rw [hpeakval, corrData_roll_entry b d hdlen hpos q hqN hq]
    have hmval : List.Forall₂ (· < ·) (subMod b.shape (unravel b.shape q) d) b.shape :=
      subMod_forall₂ _ _ _ hpos (unravel_length _ _) hdlen
    have hmravel : ravel b.shape (subMod b.shape (unravel b.shape q) d) < b.size :=
      ravel_lt hmval
    have hmne : subMod b.shape (unravel b.shape q) d ≠ List.replicate b.shape.length 0 := by
      intro heq
      have hqval := subMod_eq_replicate_imp (unravel_forall₂ b.shape q hqN) d hdlen heq
      apply hne
      rw [← ravel_unravel (show q < b.shape.prod from hqN), hqval]
    have hlt := hpeak (ravel b.shape (subMod b.shape (unravel b.shape q) d)) hmravel
      (by rw [unravel_ravel hmval]; exact hmne)
    rw [unravel_ravel hmval] at hlt
    exact hlt
  have hargmax : argmaxFlat (corrData (rollArr b d) b) = ravel b.shape (modIdx d b.shape) :=
    argmaxFlat_eq_of_strict hb2 hdom
  have hraw : rawPeak (rollArr b d) b = modIdx d b.shape := by
    show unravel b.shape (argmaxFlat (corrData (rollArr b d) b)) = _
    rw [hargmax, unravel_ravel hp]
  unfold Displacement.compute
  rw [show (rollArr b d).shape = b.shape from rfl, hraw]
  exact congrArg Displacement.mk (zip_modIdx_adjust hd)

instance strictAutocorrPeakDecidable (b : NDArray) : Decidable (StrictAutocorrPeak b) := by
  unfold StrictAutocorrPeak
  infer_instance

/-- C4 (witness): the recovery theorem applied at the spike reference
`[1,0,0]` and shift `d = 1` (with `|1| < 3/2`). -/
theorem C4_shift_recovery_witness :
    List.Forall₂ (fun di n => 2 * di.natAbs < n) [(1 : ℤ)] arr3.shape ∧
      StrictAutocorrPeak arr3 ∧
      Displacement.compute (rollArr arr3 [1]) arr3 = ⟨[1]⟩ :=
  ⟨List.Forall₂.cons (by decide) List.Forall₂.nil, by with_unfolding_all decide,
    C4_shift_recovery arr3 [1] (List.Forall₂.cons (by decide) List.Forall₂.nil)
      (by with_unfolding_all decide)⟩

/-- C4 (counterexample): the claim quantified over every reference array is
false.  The constant reference `[1,1,1]` shifted circularly by `d = 1`
(which satisfies `|d| < 3/2`) yields a flat correlation surface, the
first-occurrence argmax tie-breaks to 0, and `compute` returns 0, not 1. -/
theorem C4_counterexample :
    2 * (1 : ℤ).natAbs < 3 ∧
      Displacement.compute (rollArr ones3 [1]) ones3 ≠ ⟨[1]⟩ := by
  constructor
  · decide
  · with_unfolding_all decide


/- Machine-checked justification of the `corrData` model: the FFT pattern of
transforms.py lines 70-72 computes the circular cross-correlation.  Proved
here in one dimension over `ZMod n` using Mathlib's discrete Fourier
transform `ZMod.dft` (the n-dimensional transform factors across axes). -/

theorem conj_stdAddChar {N : ℕ} [NeZero N] (x : ZMod N) :
    (starRingEnd ℂ) (ZMod.stdAddChar x) = ZMod.stdAddChar (-x) := by
  rw [ZMod.stdAddChar_apply, ZMod.stdAddChar_apply, AddChar.map_neg_eq_inv,
    Circle.coe_inv_eq_conj]

theorem conj_dft_ratCast {N : ℕ} [NeZero N] (b : ZMod N → ℚ) (m : ZMod N) :
    (starRingEnd ℂ) (ZMod.dft (fun j => ((b j : ℚ) : ℂ)) m) =
      ∑ j : ZMod N, ZMod.stdAddChar (j * m) * ((b j : ℚ) : ℂ) := by
  rw [ZMod.dft_apply, map_sum]
  apply Finset.sum_congr rfl
  intro j _
  rw [smul_eq_mul, map_mul, conj_stdAddChar, neg_neg, map_ratCast]

/-- The cross-power spectrum of two real signals is the Fourier transform of
their circular cross-correlation. -/
theorem dft_corr {N : ℕ} [NeZero N] (a b : ZMod N → ℚ) (m : ZMod N) :
    ZMod.dft (fun k => ∑ j : ZMod N, ((a (j + k) : ℚ) : ℂ) * ((b j : ℚ) : ℂ)) m =
      ZMod.dft (fun j => ((a j : ℚ) : ℂ)) m *
        (starRingEnd ℂ) (ZMod.dft (fun j => ((b j : ℚ) : ℂ)) m) := by
  rw [conj_dft_ratCast, ZMod.dft_apply, ZMod.dft_apply, Finset.sum_mul_sum]
  simp only [smul_eq_mul, Finset.mul_sum]
  rw [Finset.sum_comm]
  conv_rhs => rw [Finset.sum_comm]
  apply Finset.sum_congr rfl
  intro j _
  rw [← Equiv.sum_comp (Equiv.subRight j)
    (fun k => ZMod.stdAddChar (-(k * m)) * (((a (j + k) : ℚ) : ℂ) * ((b j : ℚ) : ℂ)))]
  apply Finset.sum_congr rfl
  intro x _
  rw [Equiv.subRight_apply, show j + (x - j) = x from by ring,
    show -((x - j) * m) = -(x * m) + j * m from by ring, AddChar.map_add_eq_mul]
  ring

/-- Fourier inversion applied to the cross-power spectrum recovers the
circular cross-correlation: `irfftn(rfftn(a) * conj(rfftn(b)))[k] =
sum_j a[j+k] * b[j]` (lines 70-72 of transforms.py, before `abs`). -/
theorem idft_cross_correlation {N : ℕ} [NeZero N] (a b : ZMod N → ℚ) :
    (ZMod.dft).symm (fun m => ZMod.dft (fun j => ((a j : ℚ) : ℂ)) m *
        (starRingEnd ℂ) (ZMod.dft (fun j => ((b j : ℚ) : ℂ)) m)) =
      fun k => ∑ j : ZMod N, ((a (j + k) : ℚ) : ℂ) * ((b j : ℚ) : ℂ) := by
  have h : (fun m => ZMod.dft (fun j => ((a j : ℚ) : ℂ)) m *
      (starRingEnd ℂ) (ZMod.dft (fun j => ((b j : ℚ) : ℂ)) m)) =
      ZMod.dft (fun k => ∑ j : ZMod N, ((a (j + k) : ℚ) : ℂ) * ((b j : ℚ) : ℂ)) :=
    funext fun m => (dft_corr a b m).symm
  rw [h, LinearEquiv.symm_apply_apply]

theorem zmod_sum_eq_range_sum {n : ℕ} [NeZero n] (g : ZMod n → ℂ) :
    ∑ j : ZMod n, g j = ∑ i in Finset.range n, g (i : ZMod n) := by
  apply Finset.sum_bij' (fun (j : ZMod n) _ => j.val) (fun (i : ℕ) _ => (i : ZMod n))
  · intro a _
    rw [Finset.mem_range]
    exact ZMod.val_lt a
  · intro a _
    exact Finset.mem_univ _
  · intro a _
    exact ZMod.natCast_zmod_val a
  · intro a ha
    rw [Finset.mem_range] at ha
    rw [ZMod.val_natCast, Nat.mod_eq_of_lt ha]
  · intro a _
    rw [ZMod.natCast_zmod_val a]

/-- One-dimensional bridge between the `ZMod`-indexed Fourier identity and
the flat circular-correlation sum used by `corrData`: the inverse transform
of the cross-power spectrum of two length-`n` rational signals, evaluated at
`k`, is exactly the sum `corrData` takes the absolute value of. -/
theorem corr_sum_eq_idft (n : ℕ) [NeZero n] (u v : List ℚ) (k : ℕ) :
    (ZMod.dft).symm (fun m => ZMod.dft (fun j : ZMod n => ((u.getD j.val 0 : ℚ) : ℂ)) m *
        (starRingEnd ℂ) (ZMod.dft (fun j : ZMod n => ((v.getD j.val 0 : ℚ) : ℂ)) m))
      (k : ZMod n) =
      ((∑ j in Finset.range n, u.getD ((j + k) % n) 0 * v.getD j 0 : ℚ) : ℂ) := by
  rw [idft_cross_correlation (fun j : ZMod n => u.getD j.val 0)
    (fun j : ZMod n => v.getD j.val 0)]
  show (∑ j : ZMod n, ((u.getD (j + (k : ZMod n)).val 0 : ℚ) : ℂ) *
      ((v.getD j.val 0 : ℚ) : ℂ)) = _
  rw [zmod_sum_eq_range_sum]
  push_cast
  apply Finset.sum_congr rfl
  intro i hi
  rw [Finset.mem_range] at hi
  have h1 : ((i : ZMod n) + (k : ZMod n)).val = (i + k) % n := by
    rw [← Nat.cast_add, ZMod.val_natCast]
  have h2 : ((i : ZMod n)).val = i := by
    rw [ZMod.val_natCast, Nat.mod_eq_of_lt hi]
  rw [h1, h2]

end ThunderRegister

